import Mathlib

/-!
# mandelmovie: the bounded-concurrency supervisor loop

A shallow embedding of the control loop of `main` in `src/mandelmovie.c`
(lines 90-225) and of the output-name construction (lines 50, 66, 121-123).

The loop is embedded as a deterministic step function over control
locations.  Every call the supervisor makes to the operating system
(`fork`, `wait`) is answered by an environment `Env`, which is universally
quantified in the theorems: the k-th call to `fork` receives `e.fork k` and
the k-th call to `wait` receives `e.wait k`.

`running` and `next_frame` are C `int`s and are embedded as `Int`; the
invariant `0 ≤ running ≤ num_children`, `0 ≤ next_frame ≤ frames` proved
below shows that no increment or decrement leaves the range of `int`.
-/

namespace Mandelmovie

/-- The two configuration values the control loop reads (lines 43-44),
both C `int`s. -/
structure Config where
  num_children : Int
  frames : Int
deriving DecidableEq, Repr

/-- Classification of the `status` word filled in by `wait`, as tested at
lines 172-179 and 206-213: `WIFEXITED` (with `WEXITSTATUS`), else
`WIFSIGNALED` (with `WTERMSIG`), else neither. -/
inductive Status
  | exited (rc : Nat)
  | signaled (sig : Nat)
  | other
deriving DecidableEq, Repr

/-- What `fork()` returns in the supervisor process (line 99): a negative
value (failure) or the positive pid of the new child.  The value 0 is
returned only inside the new child, whose code (lines 116-154) ends in
`execv` or `_exit(127)` and never reaches the loop again. -/
inductive ForkReply
  | failed
  | parent (pid : Nat)
deriving DecidableEq, Repr

/-- What `wait(&status)` returns (lines 108, 167, 200): the pid of a
finished child together with its status, or failure with `errno == ECHILD`,
or failure with another `errno`. -/
inductive WaitReply
  | finished (pid : Nat) (status : Status)
  | echild
  | error
deriving DecidableEq, Repr

/-- The operating system as seen by the supervisor: the reply to the k-th
`fork` call and the reply to the k-th `wait` call. -/
structure Env where
  fork : Nat → ForkReply
  wait : Nat → WaitReply

/-- Observable events of the supervisor, one per system call, carrying what
the corresponding `printf`/`perror` line prints. -/
inductive Event
  /-- line 103: `perror("fork")` while trying to launch `frame` -/
  | forkFailed (frame : Int)
  /-- line 158: "Started child pid %d for frame %d (running=%d)" -/
  | started (pid : Nat) (frame : Int) (running : Int)
  /-- line 108: the `wait` after a failed fork; its result is discarded -/
  | retryWaited (r : WaitReply)
  /-- lines 174, 208: "Child %d exited with status %d. running=%d" -/
  | childExited (pid : Nat) (rc : Nat) (running : Int)
  /-- lines 176, 210: "Child %d killed by signal %d. running=%d" -/
  | childKilled (pid : Nat) (sig : Nat) (running : Int)
  /-- lines 178, 212: "Child %d ended. running=%d" -/
  | childEnded (pid : Nat) (running : Int)
  /-- lines 186, 217: `wait` failed with `ECHILD` (nothing is printed) -/
  | noChildren
  /-- lines 188, 218: `perror("wait")` -/
  | waitError
deriving DecidableEq, Repr

/-- Control locations of the loop of `main`. -/
inductive Loc
  /-- line 94: test of `while (next_frame < frames || running > 0)` -/
  | outer
  /-- line 97: test of `while (running < num_children && next_frame < frames)` -/
  | inner
  /-- line 99: about to call `fork()` -/
  | fork
  /-- line 108: about to call `wait` after a failed fork with `running > 0` -/
  | retryWait
  /-- line 164: test of `if (running >= num_children)` -/
  | capIf
  /-- line 167: about to call `wait` at capacity -/
  | capWait
  /-- line 196: test of `if (next_frame >= frames && running > 0)` -/
  | drainIf
  /-- line 200: about to call `wait` while draining -/
  | drainWait
  /-- line 225: `return 0` -/
  | returned
  /-- line 112: `exit(1)` -/
  | aborted
deriving DecidableEq, Repr

/-- State of the supervisor.  `loc`, `running` and `next_frame` are the
program's own state.  The remaining fields are instrumentation: the number
of `fork` and `wait` calls made so far, the pids of the live workers (added
on a successful fork, removed when `wait` returns that pid), and the
chronological log of events. -/
structure State where
  loc : Loc
  running : Int
  next_frame : Int
  forks : Nat
  waits : Nat
  live : List Nat
  log : List Event
deriving DecidableEq, Repr

/-- State at line 94 on first entry: `running = 0`, `next_frame = 0`
(lines 90-91). -/
def init : State :=
  { loc := .outer, running := 0, next_frame := 0, forks := 0, waits := 0,
    live := [], log := [] }

/-- The line printed for a reaped child (lines 172-179, 206-213), where
`running` is the value after the decrement. -/
def report (pid : Nat) (st : Status) (running : Int) : Event :=
  match st with
  | .exited rc => .childExited pid rc running
  | .signaled sig => .childKilled pid sig running
  | .other => .childEnded pid running

/-- The body shared, textually, by the reap at capacity (lines 167-191) and
the reap while draining (lines 200-219): `finished > 0` decrements
`running`; `ECHILD` sets it to 0; any other error leaves it.  Control then
reaches the end of the outer loop body and returns to line 94. -/
def reap (s : State) (r : WaitReply) : State :=
  match r with
  | .finished pid st =>
      { s with loc := .outer, running := s.running - 1, waits := s.waits + 1,
               live := s.live.erase pid,
               log := s.log ++ [report pid st (s.running - 1)] }
  | .echild =>
      { s with loc := .outer, running := 0, waits := s.waits + 1,
               log := s.log ++ [.noChildren] }
  | .error =>
      { s with loc := .outer, waits := s.waits + 1,
               log := s.log ++ [.waitError] }

/-- Workers removed from the live set by a `wait` reply. -/
def liveAfter (live : List Nat) (r : WaitReply) : List Nat :=
  match r with
  | .finished pid _ => live.erase pid
  | _ => live

/-- One step of the control loop. -/
def step (c : Config) (e : Env) (s : State) : State :=
  match s.loc with
  | .outer =>
      if s.next_frame < c.frames ∨ s.running > 0 then { s with loc := .inner }
      else { s with loc := .returned }
  | .inner =>
      if s.running < c.num_children ∧ s.next_frame < c.frames then
        { s with loc := .fork }
      else { s with loc := .capIf }
  | .fork =>
      match e.fork s.forks with
      | .failed =>
          if s.running > 0 then
            { s with loc := .retryWait, forks := s.forks + 1,
                     log := s.log ++ [.forkFailed s.next_frame] }
          else
            { s with loc := .aborted, forks := s.forks + 1,
                     log := s.log ++ [.forkFailed s.next_frame] }
      | .parent pid =>
          { s with loc := .inner, running := s.running + 1,
                   next_frame := s.next_frame + 1, forks := s.forks + 1,
                   live := s.live ++ [pid],
                   log := s.log ++ [.started pid s.next_frame (s.running + 1)] }
  | .retryWait =>
      -- lines 108-110: wait(&status); running--; continue;
      { s with loc := .inner, running := s.running - 1, waits := s.waits + 1,
               live := liveAfter s.live (e.wait s.waits),
               log := s.log ++ [.retryWaited (e.wait s.waits)] }
  | .capIf =>
      if s.running ≥ c.num_children then { s with loc := .capWait }
      else { s with loc := .drainIf }
  | .capWait => reap s (e.wait s.waits)
  | .drainIf =>
      if s.next_frame ≥ c.frames ∧ s.running > 0 then { s with loc := .drainWait }
      else { s with loc := .outer }
  | .drainWait => reap s (e.wait s.waits)
  | .returned => s
  | .aborted => s

/-- The state after `n` steps from the start of the loop. -/
def run (c : Config) (e : Env) : Nat → State
  | 0 => init
  | n + 1 => step c e (run c e n)

/-- Exit status of the process once the loop has been left: 0 from
`return 0` (line 225), 1 from `exit(1)` (line 112). -/
def exitStatus (s : State) : Option Int :=
  match s.loc with
  | .returned => some 0
  | .aborted => some 1
  | _ => none

/-- Facts that hold at every point of the loop: the ranges of the two
counters, and what the tests passed on the way to each location guarantee. -/
def Inv (c : Config) (s : State) : Prop :=
  0 ≤ s.running ∧ s.running ≤ c.num_children ∧
  0 ≤ s.next_frame ∧ s.next_frame ≤ c.frames ∧
  (s.loc = .fork → s.running < c.num_children ∧ s.next_frame < c.frames) ∧
  (s.loc = .retryWait → 0 < s.running) ∧
  (s.loc = .capIf → c.num_children ≤ s.running ∨ c.frames ≤ s.next_frame) ∧
  (s.loc = .capWait → c.num_children ≤ s.running) ∧
  (s.loc = .drainIf → c.frames ≤ s.next_frame) ∧
  (s.loc = .drainWait → 0 < s.running ∧ c.frames ≤ s.next_frame) ∧
  (s.loc = .returned → c.frames ≤ s.next_frame ∧ s.running ≤ 0)

/-- The loop has been left, by `return 0` or by `exit(1)`. -/
def Finished (s : State) : Prop := s.loc = .returned ∨ s.loc = .aborted

instance (s : State) : Decidable (Finished s) := by
  unfold Finished; infer_instance

/-- Work still ahead: two units for each frame not yet launched (its fork
and its reap) and one for each worker counted as running. -/
def workLeft (c : Config) (s : State) : Nat :=
  (2 * (c.frames - s.next_frame) + s.running).toNat

/-- Position of a location inside one pass of the loop body, larger for
locations further from the next system call. -/
def rank : Loc → Nat
  | .outer => 9
  | .inner => 8
  | .fork => 7
  | .capIf => 7
  | .retryWait => 6
  | .capWait => 6
  | .drainIf => 6
  | .drainWait => 5
  | .returned => 0
  | .aborted => 0

/-- Termination measure of the loop: it drops at every step while no `wait`
fails with an error other than `ECHILD`. -/
def potential (c : Config) (s : State) : Nat :=
  match s.loc with
  | .returned => 0
  | .aborted => 0
  | .outer =>
      if s.next_frame < c.frames ∨ s.running > 0 then 10 * workLeft c s + 9 else 1
  | l => 10 * workLeft c s + rank l

/-- Frame index of a successful launch event. -/
def Event.launchedFrame : Event → Option Int
  | .started _ f _ => some f
  | _ => none

/-- Frame index and outcome (`true` for success) of a launch attempt, that
is of a call to `fork`. -/
def Event.attempt : Event → Option (Int × Bool)
  | .started _ f _ => some (f, true)
  | .forkFailed f => some (f, false)
  | _ => none

/-- Whether the event is a call to `wait`. -/
def Event.isWait : Event → Bool
  | .forkFailed _ => false
  | .started _ _ _ => false
  | _ => true

/-- Frame indices of the successfully launched workers, in launch order. -/
def launchedFrames (log : List Event) : List Int :=
  log.filterMap Event.launchedFrame

/-- All launch attempts, in order. -/
def attempts (log : List Event) : List (Int × Bool) :=
  log.filterMap Event.attempt

/-- Number of failed `fork` calls. -/
def failedForks (log : List Event) : Nat :=
  ((attempts log).filter (fun a => !a.2)).length

/-- Number of `wait` calls. -/
def waitCalls (log : List Event) : Nat :=
  (log.filter Event.isWait).length

/-- Relation between consecutive launch attempts `a` then `b`: after a
success the next frame is attempted, after a failure the same frame. -/
def NextAttempt (a b : Int × Bool) : Prop :=
  b.1 = if a.2 then a.1 + 1 else a.1

/-- Bookkeeping that relates the log and the call counters to
`next_frame`.  The attempts are chained from a fictitious failed attempt
at frame 0, which says that the first real attempt is for frame 0. -/
def LogInv (s : State) : Prop :=
  launchedFrames s.log = (List.range s.next_frame.toNat).map Int.ofNat ∧
  0 ≤ s.next_frame ∧
  s.forks = (attempts s.log).length ∧
  s.forks = s.next_frame.toNat + failedForks s.log ∧
  s.waits = waitCalls s.log ∧
  List.Chain' NextAttempt ((0, false) :: attempts s.log) ∧
  (∀ a ∈ ((0, false) :: attempts s.log).getLast?,
    (if a.2 then a.1 + 1 else a.1) = s.next_frame)

/-- The pid returned by a successful `wait`. -/
def WaitReply.pid? : WaitReply → Option Nat
  | .finished p _ => some p
  | _ => none

/-- The supervisor is about to call `wait` (lines 108, 167, 200). -/
def AtWait (s : State) : Prop :=
  s.loc = .retryWait ∨ s.loc = .capWait ∨ s.loc = .drainWait

instance (s : State) : Decidable (AtWait s) := by
  unfold AtWait; infer_instance

/-- A `wait` reply that agrees with the set of live workers: it returns one
of them whenever there is one, and reports `ECHILD` only when there is
none. -/
def WaitConsistent (live : List Nat) (r : WaitReply) : Prop :=
  (live ≠ [] → ∃ p ∈ live, r.pid? = some p) ∧ (r = .echild → live = [])

instance (live : List Nat) (r : WaitReply) : Decidable (WaitConsistent live r) := by
  unfold WaitConsistent; infer_instance

/-- The `wait` call made at step `k` of the run, if any, is answered
consistently with the live workers at that moment. -/
def ConsistentAt (c : Config) (e : Env) (k : Nat) : Prop :=
  AtWait (run c e k) →
    WaitConsistent (run c e k).live (e.wait (run c e k).waits)

instance (c : Config) (e : Env) (k : Nat) : Decidable (ConsistentAt c e k) := by
  unfold ConsistentAt; infer_instance

/-- A launch attempt that fails while no worker is running, at step `k`. -/
def FatalFork (c : Config) (e : Env) (k : Nat) : Prop :=
  (run c e k).loc = .fork ∧ (run c e k).running = 0 ∧
    e.fork (run c e k).forks = .failed

instance (c : Config) (e : Env) (k : Nat) : Decidable (FatalFork c e k) := by
  unfold FatalFork; infer_instance

/-- A `wait` reply with the termination status of the reaped worker
forgotten. -/
def WaitReply.eraseStatus : WaitReply → WaitReply
  | .finished p _ => .finished p .other
  | .echild => .echild
  | .error => .error

/-- An event with the termination status of the reaped worker forgotten. -/
def Event.eraseStatus : Event → Event
  | .retryWaited r => .retryWaited r.eraseStatus
  | .childExited p _ r => .childEnded p r
  | .childKilled p _ r => .childEnded p r
  | ev => ev

/-- A state with the termination statuses in its log forgotten. -/
def State.eraseStatus (s : State) : State :=
  { s with log := s.log.map Event.eraseStatus }

/-- The kind of an event: a launch of a frame, a failed launch attempt, or
a reap (a call to `wait`). -/
inductive Shape
  | launch (frame : Int)
  | launchFailed (frame : Int)
  | reap
deriving DecidableEq, Repr

/-- Kind of an event. -/
def Event.shape : Event → Shape
  | .started _ f _ => .launch f
  | .forkFailed f => .launchFailed f
  | _ => .reap

/-- The sequence of launches and reaps described for a run without
failures: launches of frames `0..m-1` with `m = min num_children frames`,
then for each remaining frame one reap followed by its launch, then `m`
reaps. -/
def expectedTrace (nc frames : Nat) : List Shape :=
  (List.range (min nc frames)).map (fun i => Shape.launch (Int.ofNat i)) ++
  (List.range' (min nc frames) (frames - min nc frames)).flatMap
    (fun i => [Shape.reap, Shape.launch (Int.ofNat i)]) ++
  List.replicate (min nc frames) Shape.reap

/-- The part of the failure-free sequence produced once `nf` frames have
been launched and `r` workers are still running. -/
def tracePrefix (nc nf r : Nat) : List Shape :=
  (List.range (min nc nf)).map (fun i => Shape.launch (Int.ofNat i)) ++
  (List.range' nc (nf - nc)).flatMap
    (fun i => [Shape.reap, Shape.launch (Int.ofNat i)]) ++
  List.replicate (min nc nf - r) Shape.reap

/-- Invariant of a run in which every fork and every wait succeeds. -/
def TraceInv (c : Config) (s : State) : Prop :=
  s.log.map Event.shape =
    tracePrefix c.num_children.toNat s.next_frame.toNat s.running.toNat ∧
  s.running ≤ s.next_frame ∧
  s.loc ≠ .retryWait ∧ s.loc ≠ .aborted ∧
  (s.next_frame < c.frames →
    s.running = min c.num_children s.next_frame ∨
      (s.running + 1 = c.num_children ∧ c.num_children ≤ s.next_frame))

/-- The ASCII character of a decimal digit. -/
def digitChar (d : Nat) : Char := Char.ofNat (48 + d)

/-- The digit denoted by an ASCII digit character. -/
def digitValue (ch : Char) : Nat := ch.toNat - 48

/-- Decimal representation of a natural number, most significant digit
first, without leading zeros. -/
def decimal (n : Nat) : List Char :=
  if n = 0 then ['0'] else (Nat.digits 10 n).reverse.map digitChar

/-- The number denoted by a string of decimal digits. -/
def decimalValue (cs : List Char) : Nat :=
  Nat.ofDigits 10 (cs.map digitValue).reverse

/-- The text produced by the conversion `%d` for a C `int`. -/
def fmt_d (i : Int) : List Char :=
  if i < 0 then '-' :: decimal i.natAbs else decimal i.toNat

/-- The characters `snprintf(buf, size, ...)` stores in `buf` before the
terminating NUL: at most `size - 1` of the formatted text. -/
def snprintf (size : Nat) (text : List Char) : List Char :=
  text.take (size - 1)

/-- Contents of `outprefix` (a 256-byte buffer) after line 66:
`strncpy(outprefix, optarg, 255); outprefix[255] = 0`. -/
def clipOptarg (optarg : List Char) : List Char :=
  optarg.take 255

/-- The output name built at lines 122-123:
`snprintf(outname, 512, "%s%d.jpg", outprefix, next_frame)`. -/
def outname (pfx : List Char) (next_frame : Int) : List Char :=
  snprintf 512 (pfx ++ fmt_d next_frame ++ ['.', 'j', 'p', 'g'])

/-- Example environment without failures: the k-th fork succeeds with pid
`100 + k`, and the k-th wait returns pid `100 + k`, exited with code 0
(workers finish in launch order). -/
def envOk : Env :=
  { fork := fun k => .parent (100 + k),
    wait := fun k => .finished (100 + k) (.exited 0) }

/-- The environment `envOk` except that every reaped worker was killed by
signal 9. -/
def envKilled : Env :=
  { fork := fun k => .parent (100 + k),
    wait := fun k => .finished (100 + k) (.signaled 9) }

/-- Example environment in which the second fork fails once and the second
wait fails with an error other than `ECHILD` (for instance `EINTR`). -/
def envFlaky : Env :=
  { fork := fun k => if k = 1 then .failed else .parent (100 + k),
    wait := fun k => if k = 1 then .error else .finished (100 + k) (.exited 0) }

/-- Example environment of a process started with `SIGCHLD` ignored:
children are never left to be waited for, so every wait fails with
`ECHILD`; the third fork fails. -/
def envEchild : Env :=
  { fork := fun k => if k = 2 then .failed else .parent (100 + k),
    wait := fun _ => .echild }

/-- Example environment in which no process can be created. -/
def envNoFork : Env :=
  { fork := fun _ => .failed,
    wait := fun _ => .echild }

/-- The property of the call counts at normal completion, as claimed: the
number of `fork` calls is `frames` and the number of `wait` calls is the
number of successful launches. -/
def CallCountsAsClaimed (c : Config) (e : Env) (n : Nat) : Prop :=
  (run c e n).loc = .returned →
    ((run c e n).forks : Int) = c.frames ∧
      (run c e n).waits = (launchedFrames (run c e n).log).length

theorem inv_init (c : Config) (hn : 1 ≤ c.num_children) (hf : 1 ≤ c.frames) :
    Inv c init := by
  simp only [Inv, init]
  refine ⟨le_refl _, by omega, le_refl _, by omega, ?_, ?_, ?_, ?_, ?_, ?_, ?_⟩ <;>
    intro h <;> cases h

theorem inv_step (c : Config) (e : Env) (hn : 1 ≤ c.num_children) (s : State)
    (h : Inv c s) : Inv c (step c e s) := by
  obtain ⟨loc, running, next_frame, forks, waits, live, log⟩ := s
  obtain ⟨h1, h2, h3, h4, h5, h6, h7, h8, h9, h10, h11⟩ := h
  simp only at h1 h2 h3 h4 h5 h6 h7 h8 h9 h10 h11
  cases loc <;> simp only [step, reap] <;> (try split) <;> (try split) <;>
    simp_all [Inv] <;> omega

theorem inv_run (c : Config) (e : Env) (hn : 1 ≤ c.num_children)
    (hf : 1 ≤ c.frames) (n : Nat) : Inv c (run c e n) := by
  induction n with
  | zero => exact inv_init c hn hf
  | succ n ih => exact inv_step c e hn _ ih


theorem step_of_finished (c : Config) (e : Env) (s : State) (h : Finished s) :
    step c e s = s := by
  rcases h with h | h <;> simp [step, h]

theorem run_add_of_finished (c : Config) (e : Env) (n m : Nat)
    (h : Finished (run c e n)) : run c e (n + m) = run c e n := by
  induction m with
  | zero => rfl
  | succ m ih =>
    show step c e (run c e (n + m)) = _
    rw [ih]; exact step_of_finished c e _ h

theorem finished_of_potential_zero (c : Config) (s : State)
    (h : potential c s = 0) : Finished s := by
  obtain ⟨loc, running, next_frame, forks, waits, live, log⟩ := s
  cases loc <;> simp [potential, rank, Finished] at h ⊢
  split at h <;> omega

theorem potential_step (c : Config) (e : Env) (hn : 1 ≤ c.num_children)
    (s : State) (h : Inv c s) (hfin : ¬ Finished s)
    (hw : e.wait s.waits ≠ .error) :
    potential c (step c e s) < potential c s := by
  obtain ⟨loc, running, next_frame, forks, waits, live, log⟩ := s
  obtain ⟨h1, h2, h3, h4, h5, h6, h7, h8, h9, h10, h11⟩ := h
  simp only at h1 h2 h3 h4 h5 h6 h7 h8 h9 h10 h11 hw
  cases loc
  case returned => exact absurd (Or.inl rfl) hfin
  case aborted => exact absurd (Or.inr rfl) hfin
  case capWait =>
    have h8 := h8 rfl
    simp only [step]
    cases hr : e.wait waits with
    | error => exact absurd hr hw
    | echild => simp only [reap, potential, workLeft, rank]; split_ifs <;> omega
    | finished p st => simp only [reap, potential, workLeft, rank]; split_ifs <;> omega
  case drainWait =>
    have h10 := h10 rfl
    simp only [step]
    cases hr : e.wait waits with
    | error => exact absurd hr hw
    | echild => simp only [reap, potential, workLeft, rank]; split_ifs <;> omega
    | finished p st => simp only [reap, potential, workLeft, rank]; split_ifs <;> omega
  case fork =>
    have h5 := h5 rfl
    simp only [step]
    cases e.fork forks with
    | failed => simp only [potential, workLeft, rank]; split_ifs <;> simp only [potential, workLeft, rank] <;> omega
    | parent p => simp only [potential, workLeft, rank]; omega
  case retryWait =>
    have h6 := h6 rfl
    simp only [step, potential, workLeft, rank]; omega
  case drainIf =>
    have h9 := h9 rfl
    simp only [step, potential, workLeft, rank]
    split_ifs <;> simp only [potential, workLeft, rank] <;>
      (try dsimp only at *) <;> omega
  all_goals
    simp only [step, potential, workLeft, rank]
    split_ifs <;> simp only [potential, workLeft, rank] <;>
      (try dsimp only at *) <;> omega

theorem finished_or_potential (c : Config) (e : Env) (hn : 1 ≤ c.num_children)
    (hf : 1 ≤ c.frames) (hw : ∀ k, e.wait k ≠ .error) (n : Nat) :
    Finished (run c e n) ∨ potential c (run c e n) + n ≤ potential c init := by
  induction n with
  | zero => right; simp [run]
  | succ n ih =>
    by_cases hfin : Finished (run c e n)
    · left
      have := run_add_of_finished c e n 1 hfin
      rw [this]; exact hfin
    · right
      rcases ih with ih | ih
      · exact absurd ih hfin
      · have := potential_step c e hn _ (inv_run c e hn hf n) hfin (hw _)
        show potential c (step c e (run c e n)) + (n + 1) ≤ _
        omega

theorem finished_at_bound (c : Config) (e : Env) (hn : 1 ≤ c.num_children)
    (hf : 1 ≤ c.frames) (hw : ∀ k, e.wait k ≠ .error) :
    Finished (run c e (20 * c.frames.toNat + 9)) := by
  have h0 : potential c init = 20 * c.frames.toNat + 9 := by
    simp only [potential, init, workLeft]
    rw [if_pos (by omega)]
    omega
  rcases finished_or_potential c e hn hf hw (20 * c.frames.toNat + 9) with h | h
  · exact h
  · exact finished_of_potential_zero c _ (by omega)


theorem logInv_init : LogInv init := by
  simp [LogInv, init, launchedFrames, attempts, failedForks, waitCalls]

theorem logInv_silent (s t : State) (h : LogInv s) (hl : t.log = s.log)
    (hf : t.next_frame = s.next_frame) (hk : t.forks = s.forks)
    (hw : t.waits = s.waits) : LogInv t := by
  unfold LogInv at h ⊢
  rw [hl, hf, hk, hw]; exact h

theorem logInv_wait (s t : State) (ev : Event) (h : LogInv s)
    (hl : t.log = s.log ++ [ev])
    (h1 : ev.launchedFrame = none) (h2 : ev.attempt = none) (h3 : ev.isWait = true)
    (hf : t.next_frame = s.next_frame) (hk : t.forks = s.forks)
    (hw : t.waits = s.waits + 1) : LogInv t := by
  have e1 : launchedFrames t.log = launchedFrames s.log := by
    simp [launchedFrames, hl, List.filterMap_append, h1]
  have e2 : attempts t.log = attempts s.log := by
    simp [attempts, hl, List.filterMap_append, h2]
  have e3 : waitCalls t.log = waitCalls s.log + 1 := by
    simp [waitCalls, hl, List.filter_append, h3]
  have e4 : failedForks t.log = failedForks s.log := by
    simp [failedForks, e2]
  obtain ⟨g1, g2, g3, g4, g5, g6, g7⟩ := h
  unfold LogInv
  rw [e1, e2, e3, e4, hf, hk, hw]
  exact ⟨g1, g2, g3, g4, by omega, g6, g7⟩

theorem logInv_forkFailed (s t : State) (h : LogInv s)
    (hl : t.log = s.log ++ [.forkFailed s.next_frame])
    (hf : t.next_frame = s.next_frame) (hk : t.forks = s.forks + 1)
    (hw : t.waits = s.waits) : LogInv t := by
  have e1 : launchedFrames t.log = launchedFrames s.log := by
    simp [launchedFrames, hl, List.filterMap_append, Event.launchedFrame]
  have e2 : attempts t.log = attempts s.log ++ [(s.next_frame, false)] := by
    simp [attempts, hl, List.filterMap_append, Event.attempt]
  have e3 : waitCalls t.log = waitCalls s.log := by
    simp [waitCalls, hl, List.filter_append, Event.isWait]
  have e4 : failedForks t.log = failedForks s.log + 1 := by
    simp [failedForks, e2, List.filter_append]
  obtain ⟨g1, g2, g3, g4, g5, g6, g7⟩ := h
  unfold LogInv
  rw [e1, e2, e3, e4, hf, hk, hw]
  refine ⟨g1, g2, by simp [g3], by omega, g5, ?_, ?_⟩
  · rw [← List.cons_append]
    refine List.Chain'.append g6 (List.chain'_singleton _) ?_
    intro x hx y hy
    simp at hy
    subst hy
    exact (g7 x hx).symm
  · have hlast : ∀ (l : List (Int × Bool)) (x y : Int × Bool),
        (x :: (l ++ [y])).getLast? = some y := by
      intro l x y
      rw [← List.cons_append]; exact List.getLast?_concat _
    rw [hlast]
    intro a ha
    cases ha
    simp

theorem logInv_started (s t : State) (p : Nat) (r : Int) (h : LogInv s)
    (hl : t.log = s.log ++ [.started p s.next_frame r])
    (hf : t.next_frame = s.next_frame + 1) (hk : t.forks = s.forks + 1)
    (hw : t.waits = s.waits) : LogInv t := by
  have e1 : launchedFrames t.log = launchedFrames s.log ++ [s.next_frame] := by
    simp [launchedFrames, hl, List.filterMap_append, Event.launchedFrame]
  have e2 : attempts t.log = attempts s.log ++ [(s.next_frame, true)] := by
    simp [attempts, hl, List.filterMap_append, Event.attempt]
  have e3 : waitCalls t.log = waitCalls s.log := by
    simp [waitCalls, hl, List.filter_append, Event.isWait]
  have e4 : failedForks t.log = failedForks s.log := by
    simp [failedForks, e2, List.filter_append]
  obtain ⟨g1, g2, g3, g4, g5, g6, g7⟩ := h
  have e5 : (s.next_frame + 1).toNat = s.next_frame.toNat + 1 := by omega
  unfold LogInv
  rw [e1, e2, e3, e4, hf, hk, hw, e5]
  refine ⟨?_, by omega, by simp [g3], by omega, g5, ?_, ?_⟩
  · rw [List.range_succ, List.map_append, g1]
    simp [Int.toNat_of_nonneg g2]
  · rw [← List.cons_append]
    refine List.Chain'.append g6 (List.chain'_singleton _) ?_
    intro x hx y hy
    simp at hy
    subst hy
    exact (g7 x hx).symm
  · have hlast : ∀ (l : List (Int × Bool)) (x y : Int × Bool),
        (x :: (l ++ [y])).getLast? = some y := by
      intro l x y
      rw [← List.cons_append]; exact List.getLast?_concat _
    rw [hlast]
    intro a ha
    cases ha
    simp

theorem logInv_step (c : Config) (e : Env) (s : State) (h : LogInv s) :
    LogInv (step c e s) := by
  obtain ⟨loc, running, next_frame, forks, waits, live, log⟩ := s
  cases loc
  case fork =>
    simp only [step]
    cases e.fork forks with
    | failed =>
      split_ifs
      · exact logInv_forkFailed _ _ h rfl rfl rfl rfl
      · exact logInv_forkFailed _ _ h rfl rfl rfl rfl
    | parent p => exact logInv_started _ _ p _ h rfl rfl rfl rfl
  case retryWait =>
    exact logInv_wait _ _ _ h rfl rfl rfl rfl rfl rfl rfl
  case capWait =>
    simp only [step]
    cases e.wait waits with
    | finished p st => cases st <;> exact logInv_wait _ _ _ h rfl rfl rfl rfl rfl rfl rfl
    | echild => exact logInv_wait _ _ _ h rfl rfl rfl rfl rfl rfl rfl
    | error => exact logInv_wait _ _ _ h rfl rfl rfl rfl rfl rfl rfl
  case drainWait =>
    simp only [step]
    cases e.wait waits with
    | finished p st => cases st <;> exact logInv_wait _ _ _ h rfl rfl rfl rfl rfl rfl rfl
    | echild => exact logInv_wait _ _ _ h rfl rfl rfl rfl rfl rfl rfl
    | error => exact logInv_wait _ _ _ h rfl rfl rfl rfl rfl rfl rfl
  all_goals
    simp only [step]
    first
      | exact h
      | (split_ifs <;> exact logInv_silent _ _ h rfl rfl rfl rfl)

theorem logInv_run (c : Config) (e : Env) (n : Nat) : LogInv (run c e n) := by
  induction n with
  | zero => exact logInv_init
  | succ n ih => exact logInv_step c e _ ih


theorem live_step (c : Config) (e : Env) (hn : 1 ≤ c.num_children)
    (s : State) (h : Inv c s)
    (hl : (s.live.length : Int) = s.running)
    (hw : AtWait s → WaitConsistent s.live (e.wait s.waits)) :
    ((step c e s).live.length : Int) = (step c e s).running := by
  have key : ∀ r : WaitReply, 0 < s.running → WaitConsistent s.live r →
      ∃ p st, r = .finished p st ∧ p ∈ s.live := by
    intro r hpos hc
    have hne : s.live ≠ [] := by
      intro h0; rw [h0] at hl; simp at hl; omega
    obtain ⟨p, hp, hr⟩ := hc.1 hne
    cases r with
    | finished q st =>
      simp [WaitReply.pid?] at hr
      exact ⟨q, st, rfl, hr ▸ hp⟩
    | echild => simp [WaitReply.pid?] at hr
    | error => simp [WaitReply.pid?] at hr
  obtain ⟨loc, running, next_frame, forks, waits, live, log⟩ := s
  obtain ⟨h1, h2, h3, h4, h5, h6, h7, h8, h9, h10, h11⟩ := h
  simp only at h1 h2 h3 h4 h5 h6 h7 h8 h9 h10 h11 hl hw key
  cases loc
  case fork =>
    simp only [step]
    cases e.fork forks with
    | failed => split_ifs <;> exact hl
    | parent p =>
      simp only [List.length_append, List.length_singleton]
      push_cast; omega
  case retryWait =>
    obtain ⟨p, st, hr, hp⟩ := key _ (h6 rfl) (hw (Or.inl rfl))
    simp only [step, hr, liveAfter]
    rw [List.length_erase_of_mem hp]
    have : 0 < live.length := List.length_pos_of_mem hp
    omega
  case capWait =>
    have := h8 rfl
    obtain ⟨p, st, hr, hp⟩ := key _ (by omega) (hw (Or.inr (Or.inl rfl)))
    simp only [step, hr, reap]
    rw [List.length_erase_of_mem hp]
    have : 0 < live.length := List.length_pos_of_mem hp
    omega
  case drainWait =>
    obtain ⟨p, st, hr, hp⟩ := key _ (h10 rfl).1 (hw (Or.inr (Or.inr rfl)))
    simp only [step, hr, reap]
    rw [List.length_erase_of_mem hp]
    have : 0 < live.length := List.length_pos_of_mem hp
    omega
  all_goals
    simp only [step]
    first
      | exact hl
      | (split_ifs <;> exact hl)

theorem live_run (c : Config) (e : Env) (hn : 1 ≤ c.num_children)
    (hf : 1 ≤ c.frames) (n : Nat) (hw : ∀ k, k < n → ConsistentAt c e k) :
    ((run c e n).live.length : Int) = (run c e n).running := by
  induction n with
  | zero => rfl
  | succ n ih =>
    exact live_step c e hn _ (inv_run c e hn hf n)
      (ih (fun k hk => hw k (by omega))) (hw n (by omega))



theorem calls_step (c : Config) (e : Env) (s : State) :
    (step c e s).forks + (step c e s).waits ≤ s.forks + s.waits + 1 := by
  obtain ⟨loc, running, next_frame, forks, waits, live, log⟩ := s
  cases loc
  case fork =>
    simp only [step]
    cases e.fork forks with
    | failed => split_ifs <;> (dsimp only; omega)
    | parent p => dsimp only; omega
  case retryWait => simp only [step]; omega
  case capWait =>
    simp only [step]
    cases e.wait waits <;> simp only [reap] <;> omega
  case drainWait =>
    simp only [step]
    cases e.wait waits <;> simp only [reap] <;> omega
  all_goals
    simp only [step]
    first
      | omega
      | (split_ifs <;> (dsimp only; omega))

theorem calls_run (c : Config) (e : Env) (n : Nat) :
    (run c e n).forks + (run c e n).waits ≤ n := by
  induction n with
  | zero => simp [run, init]
  | succ n ih =>
    have := calls_step c e (run c e n)
    show (step c e (run c e n)).forks + (step c e (run c e n)).waits ≤ n + 1
    omega

theorem waits_step (c : Config) (e : Env) (s : State) :
    s.waits ≤ (step c e s).waits ∧ (AtWait s → (step c e s).waits = s.waits + 1) := by
  obtain ⟨loc, running, next_frame, forks, waits, live, log⟩ := s
  cases loc
  case fork =>
    simp only [step, AtWait]
    cases e.fork forks with
    | failed => split_ifs <;> simp
    | parent p => simp
  case retryWait => simp [step]
  case capWait =>
    simp only [step]
    cases e.wait waits <;> simp [reap]
  case drainWait =>
    simp only [step]
    cases e.wait waits <;> simp [reap]
  all_goals
    simp only [step, AtWait]
    first
      | (split_ifs <;> simp)
      | simp

theorem reapCount_step (c : Config) (e : Env) (s : State)
    (hw : AtWait s → ∃ p st, e.wait s.waits = .finished p st)
    (hb : (s.waits : Int) + s.running = s.next_frame) :
    ((step c e s).waits : Int) + (step c e s).running = (step c e s).next_frame := by
  obtain ⟨loc, running, next_frame, forks, waits, live, log⟩ := s
  simp only at hw hb
  cases loc
  case fork =>
    simp only [step]
    cases e.fork forks with
    | failed => split_ifs <;> exact hb
    | parent p => dsimp only; omega
  case retryWait => simp only [step]; push_cast; omega
  case capWait =>
    obtain ⟨p, st, hr⟩ := hw (Or.inr (Or.inl rfl))
    simp only [step, hr, reap]; push_cast; omega
  case drainWait =>
    obtain ⟨p, st, hr⟩ := hw (Or.inr (Or.inr rfl))
    simp only [step, hr, reap]; push_cast; omega
  all_goals
    simp only [step]
    first
      | exact hb
      | (split_ifs <;> exact hb)

theorem reapCount_run (c : Config) (e : Env) (n : Nat)
    (hw : ∀ k, k < (run c e n).waits → ∃ p st, e.wait k = .finished p st) :
    ((run c e n).waits : Int) + (run c e n).running = (run c e n).next_frame := by
  induction n with
  | zero => simp [run, init]
  | succ n ih =>
    have hs := waits_step c e (run c e n)
    have hw' : ∀ k, k < (step c e (run c e n)).waits →
        ∃ p st, e.wait k = .finished p st := hw
    refine reapCount_step c e _ ?_ (ih fun k hk => hw' k (by omega))
    intro hat
    exact hw' _ (by have := hs.2 hat; omega)

theorem aborted_step (c : Config) (e : Env) (s : State)
    (h : (step c e s).loc = .aborted) :
    s.loc = .aborted ∨
      (s.loc = .fork ∧ e.fork s.forks = .failed ∧ ¬ 0 < s.running) := by
  obtain ⟨loc, running, next_frame, forks, waits, live, log⟩ := s
  cases loc
  case aborted => exact Or.inl rfl
  case fork =>
    right
    simp only [step] at h
    cases hr : e.fork forks with
    | failed =>
      rw [hr] at h
      dsimp only at h
      split_ifs at h with hpos
      exact ⟨rfl, rfl, hpos⟩
    | parent p => rw [hr] at h; cases h
  case capWait =>
    simp only [step] at h
    cases hr : e.wait waits <;> rw [hr] at h <;> cases h
  case drainWait =>
    simp only [step] at h
    cases hr : e.wait waits <;> rw [hr] at h <;> cases h
  all_goals
    simp only [step] at h
    first
      | cases h
      | split_ifs at h

theorem aborted_run (c : Config) (e : Env) (hn : 1 ≤ c.num_children)
    (hf : 1 ≤ c.frames) (n : Nat) (h : (run c e n).loc = .aborted) :
    ∃ k, k < n ∧ FatalFork c e k := by
  induction n with
  | zero => cases h
  | succ n ih =>
    rcases aborted_step c e _ h with h' | ⟨h1, h2, h3⟩
    · obtain ⟨k, hk, hk'⟩ := ih h'
      exact ⟨k, by omega, hk'⟩
    · refine ⟨n, by omega, h1, ?_, h2⟩
      have := (inv_run c e hn hf n).1
      omega

theorem fatal_step (c : Config) (e : Env) (s : State) (h1 : s.loc = .fork)
    (h2 : s.running = 0) (h3 : e.fork s.forks = .failed) :
    (step c e s).loc = .aborted := by
  obtain ⟨loc, running, next_frame, forks, waits, live, log⟩ := s
  simp only at h1 h2 h3
  subst h1 h2
  simp [step, h3]


theorem attempt_eraseStatus (ev : Event) : ev.eraseStatus.attempt = ev.attempt := by
  cases ev <;> rfl

theorem attempts_eraseStatus (log : List Event) :
    attempts (log.map Event.eraseStatus) = attempts log := by
  induction log with
  | nil => rfl
  | cons ev l ih =>
    simp only [attempts, List.map_cons, List.filterMap_cons] at ih ⊢
    rw [attempt_eraseStatus, ih]

theorem report_eraseStatus (p : Nat) (st : Status) (r : Int) :
    (report p st r).eraseStatus = .childEnded p r := by
  cases st <;> rfl

theorem reap_eraseStatus (s t : State) (r1 r2 : WaitReply)
    (hs : s.eraseStatus = t.eraseStatus)
    (hr : r1.eraseStatus = r2.eraseStatus) :
    (reap s r1).eraseStatus = (reap t r2).eraseStatus := by
  obtain ⟨loc, running, next_frame, forks, waits, live, log⟩ := s
  obtain ⟨loc2, running2, next_frame2, forks2, waits2, live2, log2⟩ := t
  simp only [State.eraseStatus, State.mk.injEq] at hs
  obtain ⟨rfl, rfl, rfl, rfl, rfl, rfl, hlog⟩ := hs
  cases r1 <;> cases r2 <;> simp [WaitReply.eraseStatus] at hr <;>
    simp [reap, State.eraseStatus, report_eraseStatus, hlog, hr]

theorem step_eraseStatus (c : Config) (e1 e2 : Env) (s t : State)
    (hs : s.eraseStatus = t.eraseStatus)
    (hfork : e1.fork s.forks = e2.fork t.forks)
    (hwait : (e1.wait s.waits).eraseStatus = (e2.wait t.waits).eraseStatus) :
    (step c e1 s).eraseStatus = (step c e2 t).eraseStatus := by
  have hs' := hs
  obtain ⟨loc, running, next_frame, forks, waits, live, log⟩ := s
  obtain ⟨loc2, running2, next_frame2, forks2, waits2, live2, log2⟩ := t
  simp only [State.eraseStatus, State.mk.injEq] at hs
  obtain ⟨rfl, rfl, rfl, rfl, rfl, rfl, hlog⟩ := hs
  simp only at hfork hwait
  cases loc
  case capWait => exact reap_eraseStatus _ _ _ _ hs' hwait
  case drainWait => exact reap_eraseStatus _ _ _ _ hs' hwait
  case fork =>
    simp only [step, ← hfork]
    cases e1.fork forks with
    | failed =>
      split_ifs <;>
        simp only [State.eraseStatus, List.map_append, List.map_cons, List.map_nil, hlog]
    | parent p =>
      simp only [State.eraseStatus, List.map_append, List.map_cons, List.map_nil, hlog]
  case retryWait =>
    have hl : liveAfter live (e1.wait waits) = liveAfter live (e2.wait waits) := by
      cases h1 : e1.wait waits <;> cases h2 : e2.wait waits <;>
        rw [h1, h2] at hwait <;> simp [WaitReply.eraseStatus] at hwait
      all_goals simp [liveAfter, hwait]
    simp only [step, State.eraseStatus, List.map_append, List.map_cons, List.map_nil, hlog,
      Event.eraseStatus, hwait, hl]
  all_goals
    simp only [step]
    first
      | exact hs'
      | (split_ifs <;>
          simp only [State.eraseStatus, hlog])

theorem run_eraseStatus (c : Config) (e1 e2 : Env)
    (hfork : ∀ k, e1.fork k = e2.fork k)
    (hwait : ∀ k, (e1.wait k).eraseStatus = (e2.wait k).eraseStatus) (n : Nat) :
    (run c e1 n).eraseStatus = (run c e2 n).eraseStatus := by
  induction n with
  | zero => rfl
  | succ n ih =>
    have hk : (run c e1 n).eraseStatus.forks = (run c e2 n).eraseStatus.forks :=
      congrArg State.forks ih
    have hw : (run c e1 n).eraseStatus.waits = (run c e2 n).eraseStatus.waits :=
      congrArg State.waits ih
    change (run c e1 n).forks = (run c e2 n).forks at hk
    change (run c e1 n).waits = (run c e2 n).waits at hw
    refine step_eraseStatus c e1 e2 _ _ ih ?_ ?_
    · rw [hk]; exact hfork _
    · rw [hw]; exact hwait _



theorem tracePrefix_fill (nc nf : Nat) (h : nf < nc) :
    tracePrefix nc (nf + 1) (nf + 1) =
      tracePrefix nc nf nf ++ [Shape.launch (Int.ofNat nf)] := by
  have e1 : min nc (nf + 1) = nf + 1 := by omega
  have e2 : min nc nf = nf := by omega
  have e3 : nf + 1 - nc = 0 := by omega
  have e4 : nf - nc = 0 := by omega
  simp [tracePrefix, e1, e2, e3, e4, List.range_succ]

theorem tracePrefix_steady (nc nf : Nat) (h : nc ≤ nf) (h1 : 1 ≤ nc) :
    tracePrefix nc (nf + 1) nc =
      tracePrefix nc nf (nc - 1) ++ [Shape.launch (Int.ofNat nf)] := by
  have e1 : min nc (nf + 1) = nc := by omega
  have e2 : min nc nf = nc := by omega
  have e3 : nf + 1 - nc = (nf - nc) + 1 := by omega
  have e4 : nc - (nc - 1) = 1 := by omega
  have e5 : nc + (nf - nc) = nf := by omega
  simp [tracePrefix, e1, e2, e3, e4, e5, List.range'_1_concat]

theorem tracePrefix_reap (nc nf r : Nat) (h1 : 1 ≤ r) (h2 : r ≤ min nc nf) :
    tracePrefix nc nf (r - 1) = tracePrefix nc nf r ++ [Shape.reap] := by
  have e1 : min nc nf - (r - 1) = (min nc nf - r) + 1 := by omega
  simp only [tracePrefix, e1, List.replicate_succ', List.append_assoc]

theorem tracePrefix_done (nc frames : Nat) :
    tracePrefix nc frames 0 = expectedTrace nc frames := by
  unfold tracePrefix expectedTrace
  rcases Nat.le_total nc frames with h | h
  · rw [Nat.min_eq_left h]; rfl
  · rw [Nat.min_eq_right h]
    have e1 : frames - nc = 0 := by omega
    simp [e1]


theorem shape_report (p : Nat) (st : Status) (r : Int) :
    (report p st r).shape = Shape.reap := by
  cases st <;> rfl

theorem trace_reap (c : Config) (s : State) (p : Nat) (st : Status)
    (hn : 1 ≤ c.num_children) (h : Inv c s) (ht : TraceInv c s)
    (hpos : 0 < s.running)
    (hcap : s.next_frame < c.frames → c.num_children ≤ s.running) :
    TraceInv c (reap s (.finished p st)) := by
  obtain ⟨loc, running, next_frame, forks, waits, live, log⟩ := s
  obtain ⟨h1, h2, h3, h4, -⟩ := h
  obtain ⟨t1, t2, t3, t4, t5⟩ := ht
  simp only at h1 h2 h3 h4 t1 t2 t3 t4 t5 hpos hcap
  refine ⟨?_, ?_, ?_, ?_, ?_⟩
  · simp only [reap, List.map_append, List.map_cons, List.map_nil, shape_report, t1]
    have e1 : (running - 1).toNat = running.toNat - 1 := by omega
    rw [e1]
    exact (tracePrefix_reap _ _ _ (by omega) (by omega)).symm
  · simp only [reap]; omega
  · simp [reap]
  · simp [reap]
  · simp only [reap]
    intro hlt
    have := hcap hlt
    right; omega

theorem trace_step (c : Config) (e : Env) (hn : 1 ≤ c.num_children) (s : State)
    (h : Inv c s) (ht : TraceInv c s)
    (hfork : ∃ p, e.fork s.forks = .parent p)
    (hwait : ∃ p st, e.wait s.waits = .finished p st) :
    TraceInv c (step c e s) := by
  obtain ⟨p, hp⟩ := hfork
  obtain ⟨q, st, hq⟩ := hwait
  cases hloc : s.loc
  case capWait =>
    have hcap := h.2.2.2.2.2.2.2.1 hloc
    have : step c e s = reap s (.finished q st) := by
      simp only [step, hloc, hq]
    rw [this]
    exact trace_reap c s q st hn h ht (by omega) (fun _ => hcap)
  case drainWait =>
    have hd := h.2.2.2.2.2.2.2.2.2.1 hloc
    have : step c e s = reap s (.finished q st) := by
      simp only [step, hloc, hq]
    rw [this]
    exact trace_reap c s q st hn h ht hd.1 (fun hlt => by omega)
  case retryWait => exact absurd hloc ht.2.2.1
  case aborted => exact absurd hloc ht.2.2.2.1
  case fork =>
    have hf := h.2.2.2.2.1 hloc
    obtain ⟨h1, h2, h3, h4, -⟩ := h
    obtain ⟨t1, t2, t3, t4, t5⟩ := ht
    have t5 := t5 hf.2
    have hstep : step c e s =
        { s with loc := .inner, running := s.running + 1,
                 next_frame := s.next_frame + 1, forks := s.forks + 1,
                 live := s.live ++ [p],
                 log := s.log ++ [.started p s.next_frame (s.running + 1)] } := by
      simp only [step, hloc, hp]
    rw [hstep]
    refine ⟨?_, ?_, ?_, ?_, ?_⟩
    · simp only [List.map_append, List.map_cons, List.map_nil, Event.shape, t1]
      have e0 : s.next_frame = Int.ofNat s.next_frame.toNat :=
        (Int.toNat_of_nonneg h3).symm
      have e1 : (s.next_frame + 1).toNat = s.next_frame.toNat + 1 := by omega
      rcases t5 with t5 | ⟨t5, t6⟩
      · have e2 : (s.running + 1).toNat = s.next_frame.toNat + 1 := by omega
        have e3 : s.running.toNat = s.next_frame.toNat := by omega
        rw [e1, e2, e3, tracePrefix_fill _ _ (by omega), ← e0]
      · have e2 : (s.running + 1).toNat = c.num_children.toNat := by omega
        have e3 : s.running.toNat = c.num_children.toNat - 1 := by omega
        rw [e1, e2, e3, tracePrefix_steady _ _ (by omega) (by omega), ← e0]
    · simp only; omega
    · simp
    · simp
    · simp only
      intro _
      left
      omega
  all_goals
    obtain ⟨t1, t2, t3, t4, t5⟩ := ht
    simp only [step, hloc]
    first
      | exact ⟨t1, t2, t3, t4, t5⟩
      | (split_ifs <;> exact ⟨t1, t2, by simp, by simp, t5⟩)

theorem trace_run (c : Config) (e : Env) (hn : 1 ≤ c.num_children)
    (hf : 1 ≤ c.frames)
    (hfork : ∀ k, ∃ p, e.fork k = .parent p)
    (hwait : ∀ k, ∃ p st, e.wait k = .finished p st) (n : Nat) :
    TraceInv c (run c e n) := by
  induction n with
  | zero =>
    refine ⟨?_, le_refl _, by simp [run, init], by simp [run, init], ?_⟩
    · simp [run, init, tracePrefix]
    · intro _; left; simp only [run, init]; omega
  | succ n ih =>
    exact trace_step c e hn _ (inv_run c e hn hf n) ih (hfork _) (hwait _)



theorem digitValue_digitChar (d : Nat) (h : d < 10) : digitValue (digitChar d) = d := by
  interval_cases d <;> rfl

theorem decimalValue_decimal (n : Nat) : decimalValue (decimal n) = n := by
  unfold decimal decimalValue
  split_ifs with h0
  · subst h0; rfl
  · rw [List.map_map, List.map_reverse, List.reverse_reverse]
    have : (Nat.digits 10 n).map (digitValue ∘ digitChar) = Nat.digits 10 n := by
      conv_rhs => rw [← List.map_id (Nat.digits 10 n)]
      apply List.map_congr_left
      intro d hd
      exact digitValue_digitChar d (Nat.digits_lt_base (by norm_num) hd)
    rw [this, Nat.ofDigits_digits]

theorem decimal_injective (n m : Nat) (h : decimal n = decimal m) : n = m := by
  have := congrArg decimalValue h
  rwa [decimalValue_decimal, decimalValue_decimal] at this

theorem decimal_length_le (n : Nat) (h : n < 2 ^ 31) : (decimal n).length ≤ 10 := by
  unfold decimal
  split_ifs with h0
  · simp
  · rw [List.length_map, List.length_reverse]
    have h1 := Nat.le_digits_len_le 10 n (2 ^ 31 - 1) (by omega)
    have h2 : (Nat.digits 10 (2 ^ 31 - 1)).length = 10 := by norm_num
    omega



theorem alternating_aux (k : Nat) :
    [Shape.launch (Int.ofNat 0)] ++
        (List.range' 1 k).flatMap (fun i => [Shape.reap, Shape.launch (Int.ofNat i)]) ++
        [Shape.reap]
      = (List.range (k + 1)).flatMap (fun i => [Shape.launch (Int.ofNat i), Shape.reap]) := by
  induction k with
  | zero => rfl
  | succ k ih =>
    rw [List.range_succ, List.flatMap_append, ← ih, List.range'_1_concat,
      List.flatMap_append]
    simp [Nat.add_comm]

theorem expectedTrace_one (frames : Nat) :
    expectedTrace 1 frames
      = (List.range frames).flatMap (fun i => [Shape.launch (Int.ofNat i), Shape.reap]) := by
  cases frames with
  | zero => rfl
  | succ k =>
    rw [← alternating_aux]
    have e1 : min 1 (k + 1) = 1 := by omega
    have e2 : List.range 1 = [0] := rfl
    simp [expectedTrace, e1, e2]

theorem clipOptarg_length (optarg : List Char) : (clipOptarg optarg).length ≤ 255 := by
  simp [clipOptarg, List.length_take]

theorem reap_echild (s : State) :
    (reap s .echild).running = 0 ∧ (reap s .echild).next_frame = s.next_frame ∧
      (reap s .echild).loc = .outer :=
  ⟨rfl, rfl, rfl⟩

/-! ## The claims -/

/-- Claim C1: in every run whose `wait` calls are answered consistently
with the live workers (each returns a live worker whenever one exists and
reports no children only when none exists), the number of live workers
equals the tracked `running` at every point and never exceeds
`num_children`. -/
theorem C1_live_workers_tracked (c : Config) (e : Env)
    (hn : 1 ≤ c.num_children) (hf : 1 ≤ c.frames) (n : Nat)
    (hw : ∀ k, k < n → ConsistentAt c e k) :
    ((run c e n).live.length : Int) = (run c e n).running ∧
      ((run c e n).live.length : Int) ≤ c.num_children := by
  have h1 := live_run c e hn hf n hw
  have h2 := (inv_run c e hn hf n).2.1
  exact ⟨h1, by omega⟩

/-- Claim C1, at `num_children = 2`, `frames = 5` in the failure-free
environment, after 18 steps (two workers are live). -/
theorem C1_live_workers_tracked_witness :
    (1 : Int) ≤ 2 ∧ (1 : Int) ≤ 5 ∧
    (∀ k, k < 18 → ConsistentAt ⟨2, 5⟩ envOk k) ∧
    ((run ⟨2, 5⟩ envOk 18).live.length : Int) = 2 ∧
    ((run ⟨2, 5⟩ envOk 18).live.length : Int) = (run ⟨2, 5⟩ envOk 18).running ∧
    ((run ⟨2, 5⟩ envOk 18).live.length : Int) ≤ 2 :=
  ⟨by decide, by decide, by decide, by decide,
    C1_live_workers_tracked ⟨2, 5⟩ envOk (by decide) (by decide) 18 (by decide)⟩

/-- Claim C2: for every sequence of fork and wait outcomes, at every point
of the control loop `0 ≤ running ≤ num_children` and
`0 ≤ next_frame ≤ frames`. -/
theorem C2_counters_in_range (c : Config) (e : Env)
    (hn : 1 ≤ c.num_children) (hf : 1 ≤ c.frames) (n : Nat) :
    0 ≤ (run c e n).running ∧ (run c e n).running ≤ c.num_children ∧
      0 ≤ (run c e n).next_frame ∧ (run c e n).next_frame ≤ c.frames := by
  obtain ⟨h1, h2, h3, h4, -⟩ := inv_run c e hn hf n
  exact ⟨h1, h2, h3, h4⟩

/-- Claim C2, at `num_children = 2`, `frames = 2` in an environment with a
failed fork and a failed wait, after 12 steps. -/
theorem C2_counters_in_range_witness :
    (1 : Int) ≤ 2 ∧ (1 : Int) ≤ 2 ∧
    (0 ≤ (run ⟨2, 2⟩ envFlaky 12).running ∧ (run ⟨2, 2⟩ envFlaky 12).running ≤ 2 ∧
      0 ≤ (run ⟨2, 2⟩ envFlaky 12).next_frame ∧
      (run ⟨2, 2⟩ envFlaky 12).next_frame ≤ 2) :=
  ⟨by decide, by decide,
    C2_counters_in_range ⟨2, 2⟩ envFlaky (by decide) (by decide) 12⟩

/-- Claim C3: in a run that completes normally the frames of the
successfully launched workers, in launch order, are exactly
`0, 1, ..., frames - 1`; the launch attempts start at frame 0, and each
attempt is for the next frame after a success and for the same frame after
a failure. -/
theorem C3_launch_order (c : Config) (e : Env)
    (hn : 1 ≤ c.num_children) (hf : 1 ≤ c.frames) (n : Nat)
    (hret : (run c e n).loc = .returned) :
    launchedFrames (run c e n).log = (List.range c.frames.toNat).map Int.ofNat ∧
      List.Chain' NextAttempt (attempts (run c e n).log) ∧
      (∀ a ∈ (attempts (run c e n).log).head?, a.1 = 0) := by
  have hi := inv_run c e hn hf n
  obtain ⟨g1, -, -, -, -, g6, -⟩ := logInv_run c e n
  have hnf : (run c e n).next_frame = c.frames := by
    have h4 := hi.2.2.2.1
    have h11 := (hi.2.2.2.2.2.2.2.2.2.2 hret).1
    omega
  rw [hnf] at g1
  obtain ⟨g7, g8⟩ := List.chain'_cons'.1 g6
  refine ⟨g1, g8, ?_⟩
  intro a ha
  have := g7 a ha
  simpa [NextAttempt] using this

/-- Claim C3, at `num_children = 2`, `frames = 2` in an environment with a
failed fork and a failed wait: frames 0 and 1 are launched, in this
order. -/
theorem C3_launch_order_witness :
    (1 : Int) ≤ 2 ∧ (1 : Int) ≤ 2 ∧ (run ⟨2, 2⟩ envFlaky 18).loc = .returned ∧
    launchedFrames (run ⟨2, 2⟩ envFlaky 18).log = [0, 1] ∧
    attempts (run ⟨2, 2⟩ envFlaky 18).log = [(0, true), (1, false), (1, true)] ∧
    (launchedFrames (run ⟨2, 2⟩ envFlaky 18).log
        = (List.range (2 : Int).toNat).map Int.ofNat ∧
      List.Chain' NextAttempt (attempts (run ⟨2, 2⟩ envFlaky 18).log) ∧
      (∀ a ∈ (attempts (run ⟨2, 2⟩ envFlaky 18).log).head?, a.1 = 0)) :=
  ⟨by decide, by decide, by decide, by decide, by decide,
    C3_launch_order ⟨2, 2⟩ envFlaky (by decide) (by decide) 18 (by decide)⟩

/-- Claim C4: when no `wait` fails with an error other than `ECHILD`, the
control loop is left (by `return 0` or by `exit(1)`) within
`20 * frames + 9` steps, whatever the fork outcomes; the state then stays
as it is and at most that many `fork` and `wait` calls have been made. -/
theorem C4_terminates (c : Config) (e : Env)
    (hn : 1 ≤ c.num_children) (hf : 1 ≤ c.frames)
    (hw : ∀ k, e.wait k ≠ .error) :
    ∃ n, n ≤ 20 * c.frames.toNat + 9 ∧ Finished (run c e n) ∧
      (∀ m, run c e (n + m) = run c e n) ∧
      (∀ m, (run c e m).forks + (run c e m).waits ≤ 20 * c.frames.toNat + 9) := by
  have hfin := finished_at_bound c e hn hf hw
  refine ⟨20 * c.frames.toNat + 9, le_refl _, hfin,
    fun m => run_add_of_finished c e _ m hfin, ?_⟩
  intro m
  rcases Nat.le_total m (20 * c.frames.toNat + 9) with h | h
  · have := calls_run c e m
    omega
  · obtain ⟨d, rfl⟩ := Nat.exists_eq_add_of_le h
    rw [run_add_of_finished c e _ d hfin]
    exact calls_run c e _

/-- Claim C4, at `num_children = 3`, `frames = 3` in an environment where a
fork fails and every `wait` reports `ECHILD`. -/
theorem C4_terminates_witness :
    (1 : Int) ≤ 3 ∧ (1 : Int) ≤ 3 ∧ (∀ k, envEchild.wait k ≠ .error) ∧
    (∃ n, n ≤ 20 * (3 : Int).toNat + 9 ∧ Finished (run ⟨3, 3⟩ envEchild n) ∧
      (∀ m, run ⟨3, 3⟩ envEchild (n + m) = run ⟨3, 3⟩ envEchild n) ∧
      (∀ m, (run ⟨3, 3⟩ envEchild m).forks + (run ⟨3, 3⟩ envEchild m).waits
        ≤ 20 * (3 : Int).toNat + 9)) :=
  ⟨by decide, by decide, (fun _ => by simp [envEchild]),
    C4_terminates ⟨3, 3⟩ envEchild (by decide) (by decide)
      (fun _ => by simp [envEchild])⟩

/-- Claim C5 fails as stated: with `num_children = 2`, `frames = 2`, one
failed fork and one failed wait, the run completes normally after 3 `fork`
calls (not 2) and 3 `wait` calls for 2 successful launches. -/
theorem C5_call_counts_counterexample :
    ¬ CallCountsAsClaimed ⟨2, 2⟩ envFlaky 18 ∧
    (run ⟨2, 2⟩ envFlaky 18).loc = .returned ∧
    (run ⟨2, 2⟩ envFlaky 18).forks = 3 ∧
    (run ⟨2, 2⟩ envFlaky 18).waits = 3 ∧
    (launchedFrames (run ⟨2, 2⟩ envFlaky 18).log).length = 2 := by
  refine ⟨?_, by decide, by decide, by decide, by decide⟩
  intro h
  have := (h (by decide)).1
  revert this
  decide

/-- Claim C5, amended: at normal completion the number of successful
launches is `frames` and the number of `fork` calls is `frames` plus the
number of failed forks (so exactly `frames` when no fork failed); if every
`wait` call made returned a finished worker, the number of `wait` calls
equals the number of successful launches. -/
theorem C5_call_counts (c : Config) (e : Env)
    (hn : 1 ≤ c.num_children) (hf : 1 ≤ c.frames) (n : Nat)
    (hret : (run c e n).loc = .returned) :
    (launchedFrames (run c e n).log).length = c.frames.toNat ∧
      (run c e n).forks = c.frames.toNat + failedForks (run c e n).log ∧
      (failedForks (run c e n).log = 0 → ((run c e n).forks : Int) = c.frames) ∧
      ((∀ k, k < (run c e n).waits → ∃ p st, e.wait k = .finished p st) →
        (run c e n).waits = (launchedFrames (run c e n).log).length) := by
  have hi := inv_run c e hn hf n
  obtain ⟨g1, g2, -, g4, -⟩ := logInv_run c e n
  have hnf : (run c e n).next_frame = c.frames := by
    have h4 := hi.2.2.2.1
    have h11 := (hi.2.2.2.2.2.2.2.2.2.2 hret).1
    omega
  have hr0 : (run c e n).running = 0 := by
    have h1 := hi.1
    have h11 := (hi.2.2.2.2.2.2.2.2.2.2 hret).2
    omega
  have hlen : (launchedFrames (run c e n).log).length = c.frames.toNat := by
    rw [g1, hnf]; simp
  refine ⟨hlen, by rw [g4, hnf], ?_, ?_⟩
  · intro h0
    rw [g4, hnf, h0]
    simp only [Nat.add_zero]
    exact Int.toNat_of_nonneg (by omega)
  · intro hw
    have := reapCount_run c e n hw
    rw [hlen]
    omega

/-- Claim C5 amended, at `num_children = 2`, `frames = 5` without failures:
5 forks, 5 launches, 5 waits. -/
theorem C5_call_counts_witness :
    (1 : Int) ≤ 2 ∧ (1 : Int) ≤ 5 ∧ (run ⟨2, 5⟩ envOk 40).loc = .returned ∧
    (run ⟨2, 5⟩ envOk 40).forks = 5 ∧ (run ⟨2, 5⟩ envOk 40).waits = 5 ∧
    ((launchedFrames (run ⟨2, 5⟩ envOk 40).log).length = (5 : Int).toNat ∧
      (run ⟨2, 5⟩ envOk 40).forks
        = (5 : Int).toNat + failedForks (run ⟨2, 5⟩ envOk 40).log ∧
      (failedForks (run ⟨2, 5⟩ envOk 40).log = 0 →
        ((run ⟨2, 5⟩ envOk 40).forks : Int) = 5) ∧
      ((∀ k, k < (run ⟨2, 5⟩ envOk 40).waits →
          ∃ p st, envOk.wait k = .finished p st) →
        (run ⟨2, 5⟩ envOk 40).waits
          = (launchedFrames (run ⟨2, 5⟩ envOk 40).log).length)) :=
  ⟨by decide, by decide, by decide, by decide, by decide,
    C5_call_counts ⟨2, 5⟩ envOk (by decide) (by decide) 40 (by decide)⟩

/-- Claim C6 fails at the reap after a failed fork (lines 106-110): with
`num_children = 3`, `frames = 3`, two workers counted as running and the
third fork failing, the `wait` at line 108 fails with `ECHILD`, and
`running` goes from 2 to 1, not to 0; `next_frame` is unchanged and the
loop continues at line 97. -/
theorem C6_retry_reap_ignores_echild :
    (run ⟨3, 3⟩ envEchild 7).loc = .retryWait ∧
    envEchild.wait (run ⟨3, 3⟩ envEchild 7).waits = .echild ∧
    (run ⟨3, 3⟩ envEchild 7).running = 2 ∧
    (run ⟨3, 3⟩ envEchild 7).next_frame = 2 ∧
    (run ⟨3, 3⟩ envEchild 8).loc = .inner ∧
    (run ⟨3, 3⟩ envEchild 8).running = 1 ∧
    (run ⟨3, 3⟩ envEchild 8).running ≠ 0 ∧
    (run ⟨3, 3⟩ envEchild 8).next_frame = 2 := by
  decide

/-- Claim C7: the run ends with a non-zero exit status exactly when some
launch attempt fails while `running = 0`; it then exits with status 1 at
once and nothing changes afterwards; a finished run without such a failure
exits 0, and an exit with status 0 happens with `next_frame = frames` and
`running = 0`. -/
theorem C7_exit_status (c : Config) (e : Env)
    (hn : 1 ≤ c.num_children) (hf : 1 ≤ c.frames) :
    ((∃ n code, exitStatus (run c e n) = some code ∧ code ≠ 0) ↔
        ∃ k, FatalFork c e k) ∧
      (∀ k, FatalFork c e k →
        exitStatus (run c e (k + 1)) = some 1 ∧
          ∀ m, run c e (k + 1 + m) = run c e (k + 1)) ∧
      (∀ n, Finished (run c e n) → (¬ ∃ k, FatalFork c e k) →
        exitStatus (run c e n) = some 0) ∧
      (∀ n, exitStatus (run c e n) = some 0 →
        (run c e n).next_frame = c.frames ∧ (run c e n).running = 0) := by
  have hfatal : ∀ k, FatalFork c e k → (run c e (k + 1)).loc = .aborted :=
    fun k h => fatal_step c e _ h.1 h.2.1 h.2.2
  refine ⟨⟨?_, ?_⟩, ?_, ?_, ?_⟩
  · rintro ⟨n, code, hs, hc⟩
    have hab : (run c e n).loc = .aborted := by
      unfold exitStatus at hs
      split at hs
      · simp only [Option.some.injEq] at hs; exact absurd hs.symm hc
      · assumption
      · cases hs
    obtain ⟨k, -, hk⟩ := aborted_run c e hn hf n hab
    exact ⟨k, hk⟩
  · rintro ⟨k, hk⟩
    refine ⟨k + 1, 1, ?_, by decide⟩
    simp [exitStatus, hfatal k hk]
  · intro k hk
    refine ⟨by simp [exitStatus, hfatal k hk], fun m => ?_⟩
    exact run_add_of_finished c e _ m (Or.inr (hfatal k hk))
  · intro n hfin hno
    rcases hfin with h | h
    · simp [exitStatus, h]
    · obtain ⟨k, -, hk⟩ := aborted_run c e hn hf n h
      exact absurd ⟨k, hk⟩ hno
  · intro n hs
    have hret : (run c e n).loc = .returned := by
      unfold exitStatus at hs
      split at hs
      · assumption
      · simp at hs
      · cases hs
    have hi := inv_run c e hn hf n
    have h1 := hi.1
    have h4 := hi.2.2.2.1
    have h11 := hi.2.2.2.2.2.2.2.2.2.2 hret
    constructor <;> omega

/-- Claim C7, at `num_children = 1`, `frames = 1` when no process can be
created: the first fork fails with nothing running and the exit status
is 1. -/
theorem C7_exit_status_witness :
    (1 : Int) ≤ 1 ∧ (1 : Int) ≤ 1 ∧ FatalFork ⟨1, 1⟩ envNoFork 2 ∧
    exitStatus (run ⟨1, 1⟩ envNoFork 3) = some 1 ∧
    (launchedFrames (run ⟨1, 1⟩ envNoFork 3).log = []) ∧
    (∃ n code, exitStatus (run ⟨1, 1⟩ envNoFork n) = some code ∧ code ≠ 0) :=
  ⟨by decide, by decide, by decide, by decide, by decide,
    (C7_exit_status ⟨1, 1⟩ envNoFork (by decide) (by decide)).1.2 ⟨2, by decide⟩⟩

/-- Claim C8: two runs with the same configuration whose environments
differ only in the termination status reported for reaped workers are, at
every step, at the same location with the same `running` and `next_frame`,
have made the same launch attempts with the same frames and outcomes, and
have launched no frame twice. -/
theorem C8_status_never_affects_scheduling (c : Config) (e1 e2 : Env)
    (hfork : ∀ k, e1.fork k = e2.fork k)
    (hwait : ∀ k, (e1.wait k).eraseStatus = (e2.wait k).eraseStatus) (n : Nat) :
    (run c e1 n).loc = (run c e2 n).loc ∧
      (run c e1 n).running = (run c e2 n).running ∧
      (run c e1 n).next_frame = (run c e2 n).next_frame ∧
      attempts (run c e1 n).log = attempts (run c e2 n).log ∧
      (launchedFrames (run c e1 n).log).Nodup := by
  have h := run_eraseStatus c e1 e2 hfork hwait n
  have hlog : (run c e1 n).log.map Event.eraseStatus
      = (run c e2 n).log.map Event.eraseStatus := congrArg State.log h
  have hloc : (run c e1 n).eraseStatus.loc = (run c e2 n).eraseStatus.loc :=
    congrArg State.loc h
  have hrun : (run c e1 n).eraseStatus.running = (run c e2 n).eraseStatus.running :=
    congrArg State.running h
  have hnf : (run c e1 n).eraseStatus.next_frame
      = (run c e2 n).eraseStatus.next_frame := congrArg State.next_frame h
  refine ⟨hloc, hrun, hnf, ?_, ?_⟩
  · rw [← attempts_eraseStatus (run c e1 n).log, hlog, attempts_eraseStatus]
  · rw [(logInv_run c e1 n).1]
    exact (List.nodup_range _).map (fun a b hab => Int.ofNat.inj hab)

/-- Claim C8, at `num_children = 2`, `frames = 5`: workers that all exit
with code 0 against workers that are all killed by signal 9. -/
theorem C8_status_never_affects_scheduling_witness :
    (∀ k, envOk.fork k = envKilled.fork k) ∧
    (∀ k, (envOk.wait k).eraseStatus = (envKilled.wait k).eraseStatus) ∧
    (run ⟨2, 5⟩ envOk 40).log ≠ (run ⟨2, 5⟩ envKilled 40).log ∧
    ((run ⟨2, 5⟩ envOk 40).loc = (run ⟨2, 5⟩ envKilled 40).loc ∧
      (run ⟨2, 5⟩ envOk 40).running = (run ⟨2, 5⟩ envKilled 40).running ∧
      (run ⟨2, 5⟩ envOk 40).next_frame = (run ⟨2, 5⟩ envKilled 40).next_frame ∧
      attempts (run ⟨2, 5⟩ envOk 40).log = attempts (run ⟨2, 5⟩ envKilled 40).log ∧
      (launchedFrames (run ⟨2, 5⟩ envOk 40).log).Nodup) :=
  ⟨fun _ => rfl, fun _ => rfl, by decide,
    C8_status_never_affects_scheduling ⟨2, 5⟩ envOk envKilled
      (fun _ => rfl) (fun _ => rfl) 40⟩

/-- Claim C9: when every fork succeeds and every wait returns a finished
worker, the run completes normally and its sequence of launches and reaps
is exactly: launches of frames `0..m-1` with `m = min num_children frames`,
then for each further frame one reap followed by its launch, then `m`
reaps; with `num_children = 1` launches and reaps alternate. -/
theorem C9_failure_free_schedule (c : Config) (e : Env)
    (hn : 1 ≤ c.num_children) (hf : 1 ≤ c.frames)
    (hfork : ∀ k, ∃ p, e.fork k = .parent p)
    (hwait : ∀ k, ∃ p st, e.wait k = .finished p st) :
    (∃ n, (run c e n).loc = .returned) ∧
      (∀ n, (run c e n).loc = .returned →
        (run c e n).log.map Event.shape
            = expectedTrace c.num_children.toNat c.frames.toNat ∧
          (c.num_children = 1 →
            (run c e n).log.map Event.shape
              = (List.range c.frames.toNat).flatMap
                  (fun i => [Shape.launch (Int.ofNat i), Shape.reap]))) := by
  have hgen : ∀ n, (run c e n).loc = .returned →
      (run c e n).log.map Event.shape
        = expectedTrace c.num_children.toNat c.frames.toNat := by
    intro n hret
    have hi := inv_run c e hn hf n
    have ht := (trace_run c e hn hf hfork hwait n).1
    have h1 := hi.1
    have h4 := hi.2.2.2.1
    have h11 := hi.2.2.2.2.2.2.2.2.2.2 hret
    have hnf : (run c e n).next_frame = c.frames := by omega
    have hr0 : (run c e n).running = 0 := by omega
    rw [ht, hnf, hr0]
    exact tracePrefix_done _ _
  refine ⟨?_, fun n hret => ⟨hgen n hret, fun h1 => ?_⟩⟩
  · have hw : ∀ k, e.wait k ≠ .error := by
      intro k hk
      obtain ⟨p, st, h⟩ := hwait k
      rw [h] at hk
      cases hk
    refine ⟨_, (finished_at_bound c e hn hf hw).resolve_right ?_⟩
    exact (trace_run c e hn hf hfork hwait _).2.2.2.1
  · rw [hgen n hret, h1]
    exact expectedTrace_one _

/-- Claim C9, at `num_children = 2`, `frames = 5`: the sequence is
L0 L1 R L2 R L3 R L4 R R. -/
theorem C9_failure_free_schedule_witness :
    (1 : Int) ≤ 2 ∧ (1 : Int) ≤ 5 ∧ (run ⟨2, 5⟩ envOk 40).loc = .returned ∧
    (run ⟨2, 5⟩ envOk 40).log.map Event.shape
      = [.launch 0, .launch 1, .reap, .launch 2, .reap, .launch 3, .reap,
          .launch 4, .reap, .reap] ∧
    expectedTrace 2 5
      = [.launch 0, .launch 1, .reap, .launch 2, .reap, .launch 3, .reap,
          .launch 4, .reap, .reap] ∧
    (run ⟨2, 5⟩ envOk 40).log.map Event.shape = expectedTrace 2 5 :=
  ⟨by decide, by decide, by decide, by decide, by decide,
    ((C9_failure_free_schedule ⟨2, 5⟩ envOk (by decide) (by decide)
      (fun k => ⟨100 + k, rfl⟩) (fun k => ⟨100 + k, .exited 0, rfl⟩)).2 40
      (by decide)).1⟩

/-- Claim C10: for an output prefix of at most 255 bytes and frame indices
`i`, `j` in `[0, frames)` with `frames` a positive 32-bit `int`, the output
name of frame `i` is the prefix, then the decimal digits of `i`, then
`.jpg`, not truncated by the 512-byte buffer; and the names of different
frames differ. -/
theorem C10_outname (pfx : List Char) (frames i j : Int)
    (hp : pfx.length ≤ 255) (hf : frames ≤ 2 ^ 31 - 1)
    (hi : 0 ≤ i) (hi' : i < frames) (hj : 0 ≤ j) (hj' : j < frames) :
    outname pfx i = pfx ++ decimal i.toNat ++ ['.', 'j', 'p', 'g'] ∧
      (i ≠ j → outname pfx i ≠ outname pfx j) := by
  have key : ∀ a : Int, 0 ≤ a → a < frames →
      outname pfx a = pfx ++ decimal a.toNat ++ ['.', 'j', 'p', 'g'] := by
    intro a ha ha'
    have hlen := decimal_length_le a.toNat (by omega)
    unfold outname snprintf fmt_d
    rw [if_neg (by omega)]
    apply List.take_of_length_le
    simp only [List.length_append, List.length_cons, List.length_nil]
    omega
  refine ⟨key i hi hi', fun hne heq => hne ?_⟩
  rw [key i hi hi', key j hj hj'] at heq
  have h1 := List.append_cancel_right heq
  have h2 := List.append_cancel_left h1
  have h3 := decimal_injective _ _ h2
  omega

/-- Claim C10, for the default prefix `mandel`, 50 frames, frames 7 and
12: the names are `mandel7.jpg` and `mandel12.jpg`. -/
theorem C10_outname_witness :
    ("mandel".toList).length ≤ 255 ∧ (50 : Int) ≤ 2 ^ 31 - 1 ∧
    outname "mandel".toList 7 = "mandel7.jpg".toList ∧
    outname "mandel".toList 12 = "mandel12.jpg".toList ∧
    (outname "mandel".toList 7
        = "mandel".toList ++ decimal (7 : Int).toNat ++ ['.', 'j', 'p', 'g'] ∧
      ((7 : Int) ≠ 12 → outname "mandel".toList 7 ≠ outname "mandel".toList 12)) :=
  ⟨by decide, by decide, by simp [outname, snprintf, fmt_d, decimal, digitChar],
    by simp [outname, snprintf, fmt_d, decimal, digitChar],
    C10_outname "mandel".toList 50 7 12 (by decide) (by decide) (by decide)
      (by decide) (by decide) (by decide)⟩

end Mandelmovie
